import Mathlib

/-!
Verification of the chat find-widget search engine (`useFindWidget`).

The embedding follows the two variants of `useFindWidget` found in the
source file: the data search over the chat history (`refreshSearch`), the
match-navigation operations (`nextMatch` / `previousMatch` and the scroll
coordinator `scrollToMatch`), the current-match re-selection policy, and the
effects gating search and highlight state on the open/disabled flags.

Machine strings are modelled as Lean `String`s; `toLowerCase` is modelled by
lowering every character.  `indexOf(query, start)` is modelled by
`indexOfFrom`, and the `while` loop collecting occurrences by
`collectOccurrences` (a fuel argument bounds the iteration count; each
iteration advances the scan position by at least one, so `t.length + 1`
steps always suffice).
-/

namespace FindWidget

/-- One part of a structured message content (`MessagePart`): a text part or
a non-text part (such as an image), which contributes no searchable text. -/
inductive MessagePart where
  | text (text : String)
  | imageUrl (url : String)
deriving DecidableEq, Repr

/-- Message content: either plain text or an ordered sequence of typed parts. -/
inductive MessageContent where
  | str (s : String)
  | parts (ps : List MessagePart)
deriving DecidableEq, Repr

/-- A chat message record `{ id, role, content }`. -/
structure Message where
  id : String
  role : String
  content : MessageContent
deriving DecidableEq, Repr

/-- A history item as consumed by `useFindWidget` (field `message`). -/
structure ChatHistoryItem where
  message : Message
deriving DecidableEq, Repr

/-- One logical search match, as pushed by `refreshSearch`:
`index` is the running ordinal, `messageIndex` the position in the history,
`messageId` the owning message's id (absent in the earlier variant). -/
structure SearchMatch where
  index : Nat
  messageIndex : Option Nat
  messageId : Option String
deriving DecidableEq, Repr

/-- `part.type === "text" ? part.text : ""`. -/
def flattenPart : MessagePart → String
  | .text t => t
  | .imageUrl _ => ""

/-- Flattening of message content to plain text:
a string is used as-is; a part array contributes only the text parts,
concatenated in declaration order (`.map(...).join("")`). -/
def flattenContent : MessageContent → String
  | .str s => s
  | .parts ps => String.join (ps.map flattenPart)

/-- Model of `String.prototype.toLowerCase`: lower every character. -/
def toLowerStr (s : String) : String :=
  ⟨s.data.map Char.toLower⟩

/-- `caseSensitive ? searchTerm : searchTerm.toLowerCase()`. -/
def queryOf (cs : Bool) (term : String) : String :=
  if cs then term else toLowerStr term

/-- `caseSensitive ? textContent : textContent.toLowerCase()` applied to the
flattened content. -/
def textToCheck (cs : Bool) (c : MessageContent) : String :=
  if cs then flattenContent c else toLowerStr (flattenContent c)

/-- Position of the first occurrence of `q` inside the suffix `u`, if any
(position relative to the start of `u`). -/
def indexOfSuffix (q : List Char) : List Char → Option Nat
  | [] => if q.isPrefixOf ([] : List Char) then some 0 else none
  | c :: rest =>
    if q.isPrefixOf (c :: rest) then some 0
    else (indexOfSuffix q rest).map (· + 1)

/-- Model of `text.indexOf(query, start)`: the first position `i ≥ start`
at which `q` occurs in `t` (`none` models the `-1` result). -/
def indexOfFrom (t q : List Char) (start : Nat) : Option Nat :=
  (indexOfSuffix q (t.drop start)).map (· + start)

/-- The body of the `while ((startIndex = textToCheck.indexOf(query, startIndex)) !== -1)`
loop: record the found position, then continue at `startIndex + query.length`.
The fuel argument only bounds the number of iterations. -/
def collectOccurrencesAux (t q : List Char) : Nat → Nat → List Nat
  | _, 0 => []
  | start, fuel + 1 =>
    match indexOfFrom t q start with
    | none => []
    | some i => i :: collectOccurrencesAux t q (i + q.length) fuel

/-- All occurrence positions found by the scanning loop, starting at `start`.
The loop is never entered with an empty query (`refreshSearch` returns early
on `!query`); the guard here only serves totality.  `t.length + 1 - start`
iterations always suffice because every iteration advances the scan position
by at least one. -/
def collectOccurrences (t q : List Char) (start : Nat) : List Nat :=
  if q = [] then [] else collectOccurrencesAux t q start (t.length + 1 - start)

/-- Reference scan (spec §4.2, step 4): brute-force left-to-right advance that
checks every position, records an occurrence, and resumes strictly after the
end of the matched span. -/
def bruteScan (t q : List Char) (pos : Nat) : List Nat :=
  if h1 : q ≠ [] ∧ q.isPrefixOf (t.drop pos) then
    pos :: bruteScan t q (pos + q.length)
  else if h2 : pos < t.length then
    bruteScan t q (pos + 1)
  else []
termination_by t.length - pos
decreasing_by
  · have hlen : ∀ (a b : List Char), a.isPrefixOf b → a.length ≤ b.length := by
      intro a
      induction a with
      | nil => intro b _; exact Nat.zero_le _
      | cons x xs ih =>
        intro b hb
        cases b with
        | nil => simp [List.isPrefixOf] at hb
        | cons y ys =>
          simp only [List.isPrefixOf, Bool.and_eq_true] at hb
          have := ih ys hb.2
          simp only [List.length_cons]
          omega

    have h3 := hlen q (t.drop pos) h1.2
    have h4 : 0 < q.length := List.length_pos.mpr h1.1
    rw [List.length_drop] at h3
    omega
  · omega

/-- One step of the `history.forEach` loop of the later `refreshSearch`
(lines 561-586): skip system messages, otherwise push one match per found
occurrence, with `index := results.length` at push time. -/
def searchStep (cs : Bool) (query : String) (results : List SearchMatch)
    (p : Nat × ChatHistoryItem) : List SearchMatch :=
  if p.2.message.role = "system" then results
  else
    (collectOccurrences (textToCheck cs p.2.message.content).data query.data 0).foldl
      (fun acc _ =>
        acc ++ [{ index := acc.length, messageIndex := some p.1,
                  messageId := some p.2.message.id }])
      results

/-- The match list built by the later `refreshSearch`'s history scan. -/
def computeResults (history : List ChatHistoryItem) (cs : Bool) (query : String) :
    List SearchMatch :=
  history.enum.foldl (searchStep cs query) []

/-- One step of the earlier variant's history scan (lines 210-234): identical,
except that the pushed match does not carry `messageId`. -/
def searchStepV1 (cs : Bool) (query : String) (results : List SearchMatch)
    (p : Nat × ChatHistoryItem) : List SearchMatch :=
  if p.2.message.role = "system" then results
  else
    (collectOccurrences (textToCheck cs p.2.message.content).data query.data 0).foldl
      (fun acc _ =>
        acc ++ [{ index := acc.length, messageIndex := some p.1,
                  messageId := none }])
      results

/-- The match list built by the earlier variant's history scan. -/
def computeResultsV1 (history : List ChatHistoryItem) (cs : Bool) (query : String) :
    List SearchMatch :=
  history.enum.foldl (searchStepV1 cs query) []

/-- The widget's search-related state: the match list, the current match,
the mutable previous-term reference, the visible highlights, and the log of
scroll instructions issued against the virtualized list handle. -/
structure FindState where
  matchList : List SearchMatch
  currentMatch : Option SearchMatch
  prevSearchTerm : String
  visibleHighlights : List SearchMatch
  scrollRequests : List Nat
deriving DecidableEq, Repr

/-- `scrollToMatch`: set the current match and, if its `messageIndex` is
defined, issue one scroll-to-index instruction. -/
def scrollToMatch (s : FindState) (m : SearchMatch) : FindState :=
  { s with
    currentMatch := some m
    scrollRequests :=
      match m.messageIndex with
      | some i => s.scrollRequests ++ [i]
      | none => s.scrollRequests }

/-- `nextMatch`: no-op without a current match or with an empty match list;
otherwise move to `matches[(current.index + 1) % matches.length]`.
(The inner lookup never misses when match ordinals equal positions.) -/
def nextMatch (s : FindState) : FindState :=
  match s.currentMatch with
  | none => s
  | some cur =>
    if s.matchList.length = 0 then s
    else
      match s.matchList[(cur.index + 1) % s.matchList.length]? with
      | some m => scrollToMatch s m
      | none => s

/-- `previousMatch`: symmetric to `nextMatch`, wrapping `0` to `length - 1`. -/
def previousMatch (s : FindState) : FindState :=
  match s.currentMatch with
  | none => s
  | some cur =>
    if s.matchList.length = 0 then s
    else
      match s.matchList[if cur.index = 0 then s.matchList.length - 1 else cur.index - 1]? with
      | some m => scrollToMatch s m
      | none => s

/-- JS truthiness of the optional `messageId` string: an absent id and the
empty string are both falsy. -/
def msgIdTruthy : Option String → Bool
  | none => false
  | some s => !(s == "")

/-- The predicate of `results.find` in the unchanged-term branch of the later
`refreshSearch` (lines 601-607). -/
def matchesPrev (cur r : SearchMatch) : Bool :=
  (msgIdTruthy cur.messageId && r.messageId == cur.messageId) ||
  (!msgIdTruthy cur.messageId && r.messageIndex == cur.messageIndex)

/-- Re-selection of the current match when the term is unchanged
(lines 599-615). -/
def reselectCurrent (prev : Option SearchMatch) (results : List SearchMatch) :
    Option SearchMatch :=
  match prev with
  | some cur =>
    match results.find? (matchesPrev cur) with
    | some m => some m
    | none => results.head?
  | none => results.head?

/-- The later variant's `refreshSearch` (lines 551-620) as a state
transition.  The deferred `setTimeout(updateHighlights, 0)` belongs to the
highlight layer and is modelled separately (`highlightEffect`). -/
def refreshSearch (history : List ChatHistoryItem) (cs : Bool)
    (searchTerm : String) (s : FindState) : FindState :=
  let query := queryOf cs searchTerm
  if query = "" then { s with matchList := [] }
  else
    let results := computeResults history cs query
    if searchTerm ≠ s.prevSearchTerm then
      let s1 := { s with matchList := results, prevSearchTerm := searchTerm }
      match results.head? with
      | some m => scrollToMatch s1 m
      | none => s1
    else
      { s with matchList := results,
               currentMatch := reselectCurrent s.currentMatch results }

/-- The effect running the data search (lines 632-638): when disabled or
closed, clear the match list; otherwise refresh. -/
def searchEffect (disabled isOpen : Bool) (history : List ChatHistoryItem)
    (cs : Bool) (term : String) (s : FindState) : FindState :=
  if disabled || !isOpen then { s with matchList := [] }
  else refreshSearch history cs term s

/-- The highlight effect of the earlier variant (lines 161-175): when closed
or disabled, clear the visible highlights; otherwise store the geometry
computation's result (`searchWithinContainer` is a DOM capability outside
this subsystem, so its output is a parameter here). -/
def highlightEffect (isOpen disabled : Bool) (computed : List SearchMatch)
    (s : FindState) : FindState :=
  if !isOpen || disabled then { s with visibleHighlights := [] }
  else { s with visibleHighlights := computed }

/-- Strict lexicographic order on `(messageIndex, offset)` occurrence
descriptors (the third component is the owning message's id). -/
def tripleLexLT (a b : Nat × Nat × String) : Prop :=
  a.1 < b.1 ∨ (a.1 = b.1 ∧ a.2.1 < b.2.1)

/-- Occurrence descriptors `(messageIndex, offset, messageId)` contributed by
one enumerated history item under the code's scanning loop. -/
def stepTriples (cs : Bool) (query : String) (p : Nat × ChatHistoryItem) :
    List (Nat × Nat × String) :=
  if p.2.message.role = "system" then []
  else
    (collectOccurrences (textToCheck cs p.2.message.content).data query.data 0).map
      (fun off => (p.1, off, p.2.message.id))

/-- Assignment of running ordinals to a sequence of occurrence descriptors:
the match at position `k` receives ordinal `n + k`. -/
def indexMatches (n : Nat) : List (Nat × Nat × String) → List SearchMatch
  | [] => []
  | tr :: rest =>
    { index := n, messageIndex := some tr.1, messageId := some tr.2.2 }
      :: indexMatches (n + 1) rest

/-- Ordinal assignment for the earlier variant, which records no `messageId`. -/
def indexMatchesV1 (n : Nat) : List (Nat × Nat × String) → List SearchMatch
  | [] => []
  | tr :: rest =>
    { index := n, messageIndex := some tr.1, messageId := none }
      :: indexMatchesV1 (n + 1) rest

/-- Reference occurrence descriptors (spec §4.2): skip system messages,
flatten, case-fold when insensitive, and brute-force scan each message with
non-overlapping advance, in history order. -/
def referenceTriples (history : List ChatHistoryItem) (cs : Bool) (term : String) :
    List (Nat × Nat × String) :=
  history.enum.flatMap fun p =>
    if p.2.message.role = "system" then []
    else
      (bruteScan (textToCheck cs p.2.message.content).data (queryOf cs term).data 0).map
        (fun off => (p.1, off, p.2.message.id))

/-- The reference match list: the reference occurrences with ordinals
assigned as a running counter across the whole scan. -/
def referenceMatches (history : List ChatHistoryItem) (cs : Bool) (term : String) :
    List SearchMatch :=
  indexMatches 0 (referenceTriples history cs term)

/-- The re-selection policy exactly as the claim states it: relocate by
`messageId` whenever it is present, by `messageIndex` when it is absent, and
fall back to the first match of the new list. -/
def claimReselect (cur : SearchMatch) (results : List SearchMatch) :
    Option SearchMatch :=
  if cur.messageId.isSome then
    match results.find? (fun r => r.messageId == cur.messageId) with
    | some m => some m
    | none => results.head?
  else
    match results.find? (fun r => r.messageIndex == cur.messageIndex) with
    | some m => some m
    | none => results.head?

/-- A version of a history item whose flattened text has been lower-cased. -/
def lowerItem (it : ChatHistoryItem) : ChatHistoryItem :=
  ⟨{ it.message with content := .str (toLowerStr (flattenContent it.message.content)) }⟩

/-- A version of a history in which every message's flattened text has been
lower-cased (roles and ids untouched). -/
def lowerHistory (history : List ChatHistoryItem) : List ChatHistoryItem :=
  history.map lowerItem

/-- Forget the `messageId` of a match (for comparing the two scan variants). -/
def eraseMessageId (m : SearchMatch) : SearchMatch :=
  { m with messageId := none }

/-- Fixture: a user message with id `"a"` and text `"x"`. -/
def itemA : ChatHistoryItem := ⟨⟨"a", "user", .str "x"⟩⟩

/-- Fixture: a user message with the empty string as id and text `"x"`. -/
def itemEmptyId : ChatHistoryItem := ⟨⟨"", "user", .str "x"⟩⟩

/-- Fixture: the first match of `[itemA, itemEmptyId]` under query `"x"`. -/
def mA0 : SearchMatch := ⟨0, some 0, some "a"⟩

/-- Fixture: the second match of a two-message history. -/
def mB1 : SearchMatch := ⟨1, some 1, some "b"⟩

/-- Fixture: a state whose current match carries the empty string as
`messageId` (present, but falsy in the source's truthiness test). -/
def sEmptyId : FindState :=
  ⟨[], some ⟨9, some 0, some ""⟩, "x", [], []⟩

/-- Fixture: a state holding a stale current match and an empty previous term. -/
def sStale : FindState := ⟨[], some mA0, "", [], []⟩

/-- Fixture: a state with an unchanged previous term `"x"` and current match
`mA0`. -/
def sKeep : FindState := ⟨[mA0], some mA0, "x", [], []⟩

/-- Fixture: a fresh state with no current match. -/
def sFresh : FindState := ⟨[], none, "", [], []⟩

/-- Fixture: a two-match state for navigation, currently on the second match. -/
def sNav : FindState := ⟨[mA0, mB1], some mB1, "", [], []⟩

/-! ### Basic facts about the scanning primitives -/

theorem isPrefixOf_length_le (a b : List Char) (h : a.isPrefixOf b) :
    a.length ≤ b.length := by
  induction a generalizing b with
  | nil => exact Nat.zero_le _
  | cons x xs ih =>
    cases b with
    | nil => simp [List.isPrefixOf] at h
    | cons y ys =>
      simp only [List.isPrefixOf, Bool.and_eq_true] at h
      have := ih ys h.2
      simp only [List.length_cons]
      omega

theorem isPrefixOf_nil (q : List Char) (hq : q ≠ []) :
    q.isPrefixOf ([] : List Char) = false := by
  cases q with
  | nil => exact absurd rfl hq
  | cons a as => rfl

theorem occurrence_bound {t q : List Char} {i : Nat} (hq : q ≠ [])
    (h : q.isPrefixOf (t.drop i)) : i + q.length ≤ t.length := by
  have h1 := isPrefixOf_length_le q (t.drop i) h
  have h2 : 0 < q.length := List.length_pos.mpr hq
  rw [List.length_drop] at h1
  omega

theorem indexOfSuffix_some {q : List Char} :
    ∀ {u : List Char} {k : Nat}, indexOfSuffix q u = some k →
      q.isPrefixOf (u.drop k) := by
  intro u
  induction u with
  | nil =>
    intro k h
    simp only [indexOfSuffix] at h
    by_cases hp : q.isPrefixOf ([] : List Char)
    · simp [hp] at h
      simpa [← h] using hp
    · simp [hp] at h
  | cons c rest ih =>
    intro k h
    simp only [indexOfSuffix] at h
    by_cases hp : q.isPrefixOf (c :: rest)
    · simp [hp] at h
      simpa [← h] using hp
    · simp only [if_neg hp] at h
      obtain ⟨k0, hk0, hk⟩ := Option.map_eq_some'.mp h
      subst hk
      simpa using ih hk0

theorem indexOfFrom_some_le {t q : List Char} {start i : Nat}
    (h : indexOfFrom t q start = some i) : start ≤ i := by
  obtain ⟨k, _, hk⟩ := Option.map_eq_some'.mp h
  omega

theorem indexOfFrom_some_found {t q : List Char} {start i : Nat}
    (h : indexOfFrom t q start = some i) : q.isPrefixOf (t.drop i) := by
  obtain ⟨k, hk0, hk⟩ := Option.map_eq_some'.mp h
  have := indexOfSuffix_some hk0
  rw [List.drop_drop] at this
  have hadd : start + k = i := by omega
  rwa [hadd] at this

theorem indexOfFrom_self {t q : List Char} {start : Nat}
    (h : q.isPrefixOf (t.drop start)) : indexOfFrom t q start = some start := by
  unfold indexOfFrom
  cases hd : t.drop start with
  | nil =>
    rw [hd] at h
    simp [indexOfSuffix, h]
  | cons c rest =>
    rw [hd] at h
    simp [indexOfSuffix, h]

theorem indexOfFrom_shift {t q : List Char} {start : Nat}
    (h1 : ¬ q.isPrefixOf (t.drop start)) (h2 : start < t.length) :
    indexOfFrom t q start = indexOfFrom t q (start + 1) := by
  unfold indexOfFrom
  rw [List.drop_eq_getElem_cons h2]
  rw [List.drop_eq_getElem_cons h2] at h1
  simp only [indexOfSuffix, if_neg h1]
  rw [Option.map_map]
  congr 1
  funext k
  simp only [Function.comp_apply]
  omega

theorem indexOfFrom_none_of_ge {t q : List Char} {start : Nat} (hq : q ≠ [])
    (h : t.length ≤ start) : indexOfFrom t q start = none := by
  unfold indexOfFrom
  rw [List.drop_eq_nil_of_le h]
  simp [indexOfSuffix, isPrefixOf_nil q hq]

/-! ### The indexOf-driven loop coincides with the brute-force scan -/

theorem bruteScan_nil_query (t : List Char) (pos : Nat) :
    bruteScan t [] pos = [] := by
  induction pos using bruteScan.induct t [] with
  | case1 x hcond ih => exact absurd rfl hcond.1
  | case2 x hcond hlt ih =>
    rw [bruteScan, dif_neg hcond, dif_pos hlt]
    exact ih
  | case3 x hcond hge =>
    rw [bruteScan, dif_neg hcond, dif_neg hge]

theorem bruteScan_of_none {t q : List Char} (hq : q ≠ []) :
    ∀ {pos : Nat}, indexOfFrom t q pos = none → bruteScan t q pos = [] := by
  intro pos
  induction pos using bruteScan.induct t q with
  | case1 x hcond ih =>
    intro h
    rw [indexOfFrom_self hcond.2] at h
    exact absurd h (by simp)
  | case2 x hcond hlt ih =>
    intro h
    have hnp : ¬ q.isPrefixOf (t.drop x) := fun hp => hcond ⟨hq, hp⟩
    rw [bruteScan, dif_neg hcond, dif_pos hlt]
    exact ih (by rwa [indexOfFrom_shift hnp hlt] at h)
  | case3 x hcond hge =>
    intro _
    rw [bruteScan, dif_neg hcond, dif_neg hge]

theorem bruteScan_of_some {t q : List Char} (hq : q ≠ []) :
    ∀ {pos i : Nat}, indexOfFrom t q pos = some i →
      bruteScan t q pos = i :: bruteScan t q (i + q.length) := by
  intro pos
  induction pos using bruteScan.induct t q with
  | case1 x hcond ih =>
    intro i h
    rw [indexOfFrom_self hcond.2] at h
    have hx : x = i := by simpa using h
    subst hx
    rw [bruteScan, dif_pos hcond]
  | case2 x hcond hlt ih =>
    intro i h
    have hnp : ¬ q.isPrefixOf (t.drop x) := fun hp => hcond ⟨hq, hp⟩
    rw [bruteScan, dif_neg hcond, dif_pos hlt]
    exact ih (by rwa [indexOfFrom_shift hnp hlt] at h)
  | case3 x hcond hge =>
    intro i h
    rw [indexOfFrom_none_of_ge hq (by omega)] at h
    exact absurd h (by simp)

theorem bruteScan_mem_le {t q : List Char} :
    ∀ {pos o : Nat}, o ∈ bruteScan t q pos → pos ≤ o := by
  intro pos
  induction pos using bruteScan.induct t q with
  | case1 x hcond ih =>
    intro o ho
    rw [bruteScan, dif_pos hcond] at ho
    rcases List.mem_cons.mp ho with h | h
    · omega
    · have := ih h
      omega
  | case2 x hcond hlt ih =>
    intro o ho
    rw [bruteScan, dif_neg hcond, dif_pos hlt] at ho
    have := ih ho
    omega
  | case3 x hcond hge =>
    intro o ho
    rw [bruteScan, dif_neg hcond, dif_neg hge] at ho
    exact absurd ho (List.not_mem_nil o)

theorem bruteScan_pairwise (t q : List Char) :
    ∀ pos : Nat, (bruteScan t q pos).Pairwise (· < ·) := by
  intro pos
  induction pos using bruteScan.induct t q with
  | case1 x hcond ih =>
    rw [bruteScan, dif_pos hcond]
    refine List.Pairwise.cons ?_ ih
    intro o ho
    have h1 := bruteScan_mem_le ho
    have h2 : 0 < q.length := List.length_pos.mpr hcond.1
    omega
  | case2 x hcond hlt ih =>
    rw [bruteScan, dif_neg hcond, dif_pos hlt]
    exact ih
  | case3 x hcond hge =>
    rw [bruteScan, dif_neg hcond, dif_neg hge]
    exact List.Pairwise.nil

theorem collectAux_eq_brute {t q : List Char} (hq : q ≠ []) :
    ∀ (fuel start : Nat), t.length + 1 - start ≤ fuel →
      collectOccurrencesAux t q start fuel = bruteScan t q start := by
  intro fuel
  induction fuel with
  | zero =>
    intro start hb
    have : bruteScan t q start = [] :=
      bruteScan_of_none hq (indexOfFrom_none_of_ge hq (by omega))
    simp [collectOccurrencesAux, this]
  | succ fuel ih =>
    intro start hb
    cases h : indexOfFrom t q start with
    | none => simp [collectOccurrencesAux, h, bruteScan_of_none hq h]
    | some i =>
      have h1 := indexOfFrom_some_le h
      have h2 := occurrence_bound hq (indexOfFrom_some_found h)
      have h3 : 0 < q.length := List.length_pos.mpr hq
      rw [bruteScan_of_some hq h]
      simp only [collectOccurrencesAux, h]
      exact congrArg (i :: ·) (ih (i + q.length) (by omega))

theorem collect_eq_brute (t q : List Char) (start : Nat) :
    collectOccurrences t q start = bruteScan t q start := by
  by_cases hq : q = []
  · subst hq
    simp [collectOccurrences, bruteScan_nil_query]
  · rw [collectOccurrences, if_neg hq]
    exact collectAux_eq_brute hq _ start (Nat.le_refl _)

theorem collect_mem_le {t q : List Char} {start o : Nat}
    (h : o ∈ collectOccurrences t q start) : start ≤ o := by
  rw [collect_eq_brute] at h
  exact bruteScan_mem_le h

theorem collect_pairwise (t q : List Char) (start : Nat) :
    (collectOccurrences t q start).Pairwise (· < ·) := by
  rw [collect_eq_brute]
  exact bruteScan_pairwise t q start

/-! ### Decomposition of the history fold -/

theorem indexMatches_append (l1 l2 : List (Nat × Nat × String)) :
    ∀ n, indexMatches n (l1 ++ l2)
      = indexMatches n l1 ++ indexMatches (n + l1.length) l2 := by
  induction l1 with
  | nil => intro n; simp [indexMatches]
  | cons tr rest ih =>
    intro n
    simp only [List.cons_append, indexMatches, List.append_eq]
    rw [ih (n + 1)]
    have h : n + 1 + rest.length = n + (tr :: rest).length := by
      simp [List.length_cons]
      omega
    rw [h]

theorem indexMatches_length (l : List (Nat × Nat × String)) :
    ∀ n, (indexMatches n l).length = l.length := by
  induction l with
  | nil => intro n; rfl
  | cons tr rest ih => intro n; simp [indexMatches, ih]

theorem indexMatches_map_index (l : List (Nat × Nat × String)) :
    ∀ n, (indexMatches n l).map SearchMatch.index = List.range' n l.length := by
  induction l with
  | nil => intro n; rfl
  | cons tr rest ih =>
    intro n
    simp only [indexMatches, List.map_cons, ih (n + 1), List.length_cons,
      List.range'_succ]

theorem indexMatches_messageId_isSome (l : List (Nat × Nat × String)) :
    ∀ n, (indexMatches n l).all (fun m => m.messageId.isSome) = true := by
  induction l with
  | nil => intro n; rfl
  | cons tr rest ih =>
    intro n
    simp only [indexMatches, List.all_cons, ih (n + 1), Option.isSome_some,
      Bool.and_self]

theorem indexMatchesV1_eq_map (l : List (Nat × Nat × String)) :
    ∀ n, indexMatchesV1 n l = (indexMatches n l).map eraseMessageId := by
  induction l with
  | nil => intro n; rfl
  | cons tr rest ih =>
    intro n
    simp [indexMatchesV1, indexMatches, ih (n + 1), eraseMessageId]

theorem push_loop_eq (hi : Nat) (id : String) (offs : List Nat) :
    ∀ results : List SearchMatch,
      offs.foldl
        (fun acc _ =>
          acc ++ [{ index := acc.length, messageIndex := some hi,
                    messageId := some id }])
        results
      = results ++ indexMatches results.length (offs.map fun off => (hi, off, id)) := by
  induction offs with
  | nil => intro results; simp [indexMatches]
  | cons o rest ih =>
    intro results
    simp only [List.foldl_cons, List.map_cons, indexMatches]
    rw [ih]
    simp only [List.length_append, List.length_singleton]
    rw [List.append_assoc]
    rfl

theorem push_loop_v1_eq (hi : Nat) (id : String) (offs : List Nat) :
    ∀ results : List SearchMatch,
      offs.foldl
        (fun acc _ =>
          acc ++ [{ index := acc.length, messageIndex := some hi,
                    messageId := none }])
        results
      = results
        ++ indexMatchesV1 results.length (offs.map fun off => (hi, off, id)) := by
  induction offs with
  | nil => intro results; simp [indexMatchesV1]
  | cons o rest ih =>
    intro results
    simp only [List.foldl_cons, List.map_cons, indexMatchesV1]
    rw [ih]
    simp only [List.length_append, List.length_singleton]
    rw [List.append_assoc]
    rfl

theorem searchStep_eq (cs : Bool) (query : String) (results : List SearchMatch)
    (p : Nat × ChatHistoryItem) :
    searchStep cs query results p
      = results ++ indexMatches results.length (stepTriples cs query p) := by
  unfold searchStep stepTriples
  by_cases hr : p.2.message.role = "system"
  · simp [hr, indexMatches]
  · simp only [if_neg hr]
    exact push_loop_eq p.1 p.2.message.id _ results

theorem searchStepV1_eq (cs : Bool) (query : String) (results : List SearchMatch)
    (p : Nat × ChatHistoryItem) :
    searchStepV1 cs query results p
      = results ++ indexMatchesV1 results.length (stepTriples cs query p) := by
  unfold searchStepV1 stepTriples
  by_cases hr : p.2.message.role = "system"
  · simp [hr, indexMatchesV1]
  · simp only [if_neg hr]
    exact push_loop_v1_eq p.1 p.2.message.id _ results

theorem foldl_searchStep (cs : Bool) (query : String)
    (l : List (Nat × ChatHistoryItem)) :
    ∀ results : List SearchMatch,
      l.foldl (searchStep cs query) results
        = results
          ++ indexMatches results.length (l.flatMap (stepTriples cs query)) := by
  induction l with
  | nil => intro results; simp [indexMatches]
  | cons p rest ih =>
    intro results
    simp only [List.foldl_cons, List.flatMap_cons]
    rw [ih, searchStep_eq, indexMatches_append, List.append_assoc,
      List.length_append, indexMatches_length]

theorem foldl_searchStepV1_map (cs : Bool) (query : String)
    (l : List (Nat × ChatHistoryItem)) :
    ∀ results : List SearchMatch,
      l.foldl (searchStepV1 cs query) (results.map eraseMessageId)
        = (l.foldl (searchStep cs query) results).map eraseMessageId := by
  induction l with
  | nil => intro results; rfl
  | cons p rest ih =>
    intro results
    simp only [List.foldl_cons]
    have hstep : searchStepV1 cs query (results.map eraseMessageId) p
        = (searchStep cs query results p).map eraseMessageId := by
      rw [searchStepV1_eq, searchStep_eq, indexMatchesV1_eq_map, List.map_append,
        List.length_map]
    rw [hstep, ih]

theorem computeResults_eq (history : List ChatHistoryItem) (cs : Bool)
    (query : String) :
    computeResults history cs query
      = indexMatches 0 (history.enum.flatMap (stepTriples cs query)) := by
  unfold computeResults
  rw [foldl_searchStep]
  rfl

theorem computeResultsV1_eq_map (history : List ChatHistoryItem) (cs : Bool)
    (query : String) :
    computeResultsV1 history cs query
      = (computeResults history cs query).map eraseMessageId := by
  unfold computeResultsV1 computeResults
  rw [← foldl_searchStepV1_map]
  rfl

/-! ### Ordering of the produced occurrence descriptors -/

theorem mem_enumFrom_fst_le {α : Type} {l : List α} {n : Nat} {p : Nat × α}
    (h : p ∈ List.enumFrom n l) : n ≤ p.1 := by
  obtain ⟨i, x⟩ := p
  exact (List.mem_enumFrom h).1

theorem pairwise_fst_enumFrom {α : Type} (l : List α) :
    ∀ n, (List.enumFrom n l).Pairwise (fun a b => a.1 < b.1) := by
  induction l with
  | nil => intro n; exact List.Pairwise.nil
  | cons x xs ih =>
    intro n
    refine List.Pairwise.cons ?_ (ih (n + 1))
    intro p hp
    have := mem_enumFrom_fst_le hp
    simpa using this

theorem stepTriples_fst {cs : Bool} {query : String} {p : Nat × ChatHistoryItem}
    {x : Nat × Nat × String} (h : x ∈ stepTriples cs query p) : x.1 = p.1 := by
  unfold stepTriples at h
  by_cases hr : p.2.message.role = "system"
  · simp [hr] at h
  · rw [if_neg hr] at h
    obtain ⟨off, _, hx⟩ := List.mem_map.mp h
    rw [← hx]

theorem triples_pairwise (cs : Bool) (query : String)
    (l : List (Nat × ChatHistoryItem))
    (hl : l.Pairwise (fun a b => a.1 < b.1)) :
    (l.flatMap (stepTriples cs query)).Pairwise tripleLexLT := by
  rw [List.flatMap_def]
  rw [List.pairwise_flatten]
  constructor
  · intro bl hbl
    obtain ⟨p, _, hp⟩ := List.mem_map.mp hbl
    subst hp
    unfold stepTriples
    by_cases hr : p.2.message.role = "system"
    · simp [hr]
    · rw [if_neg hr]
      rw [List.pairwise_map]
      refine (collect_pairwise _ _ 0).imp ?_
      intro a b hab
      exact Or.inr ⟨rfl, hab⟩
  · rw [List.pairwise_map]
    refine hl.imp ?_
    intro a b hab x hx y hy
    have hxa := stepTriples_fst hx
    have hyb := stepTriples_fst hy
    exact Or.inl (by rw [hxa, hyb]; exact hab)

/-! ### The match list produced by `refreshSearch` -/

theorem scrollToMatch_matchList (s : FindState) (m : SearchMatch) :
    (scrollToMatch s m).matchList = s.matchList := rfl

theorem refresh_matchList (history : List ChatHistoryItem) (cs : Bool)
    (term : String) (s : FindState) :
    (refreshSearch history cs term s).matchList
      = if queryOf cs term = "" then []
        else computeResults history cs (queryOf cs term) := by
  unfold refreshSearch
  by_cases hq : queryOf cs term = ""
  · simp [hq]
  · rw [if_neg hq, if_neg hq]
    by_cases ht : term ≠ s.prevSearchTerm
    · rw [if_pos ht]
      cases h : (computeResults history cs (queryOf cs term)).head? with
      | none => rfl
      | some m => rfl
    · rw [if_neg ht]

theorem data_of_empty_query {cs : Bool} {term : String}
    (h : queryOf cs term = "") : (queryOf cs term).data = [] := by
  rw [h]

theorem referenceTriples_empty_query (history : List ChatHistoryItem)
    {cs : Bool} {term : String} (h : queryOf cs term = "") :
    referenceTriples history cs term = [] := by
  unfold referenceTriples
  rw [data_of_empty_query h]
  simp [bruteScan_nil_query]

theorem triples_reference (history : List ChatHistoryItem) (cs : Bool)
    (term : String) :
    history.enum.flatMap (stepTriples cs (queryOf cs term))
      = referenceTriples history cs term := by
  unfold referenceTriples
  have hfun : stepTriples cs (queryOf cs term)
      = fun p : Nat × ChatHistoryItem =>
          if p.2.message.role = "system" then []
          else
            (bruteScan (textToCheck cs p.2.message.content).data
                (queryOf cs term).data 0).map
              (fun off => (p.1, off, p.2.message.id)) := by
    funext p
    unfold stepTriples
    rw [collect_eq_brute]
  rw [hfun]

theorem stepTriples_lower (q : String) (p : Nat × ChatHistoryItem) :
    stepTriples true q (Prod.map id lowerItem p) = stepTriples false q p := by
  obtain ⟨i, it⟩ := p
  simp only [stepTriples, Prod.map, id, lowerItem, textToCheck, flattenContent,
    if_true, if_false, Bool.false_eq_true, ite_false, ite_true]

/-- Claim C1: for every history and configuration, the match list produced by
`refreshSearch` is exactly the reference scan — system messages contribute
nothing, remaining contents are flattened (strings as-is, part arrays via
their text parts in order), text and query are lower-cased when insensitive,
each message is scanned left-to-right for non-overlapping occurrences
resuming strictly after each matched span, messages are processed in history
order, and ordinals form a running counter across the whole scan. -/
theorem refresh_matches_eq_reference (history : List ChatHistoryItem)
    (cs : Bool) (term : String) (s : FindState) :
    (refreshSearch history cs term s).matchList
      = referenceMatches history cs term := by
  rw [refresh_matchList]
  unfold referenceMatches
  by_cases hq : queryOf cs term = ""
  · rw [if_pos hq, referenceTriples_empty_query history hq]
    rfl
  · rw [if_neg hq, computeResults_eq, triples_reference]

/-- Claim C5: a case-insensitive search yields the same match list as a
case-sensitive search over the history and query with every flattened text
and the query lower-cased. -/
theorem case_fold_equivalence (history : List ChatHistoryItem) (term : String)
    (s : FindState) :
    (refreshSearch history false term s).matchList
      = (refreshSearch (lowerHistory history) true (toLowerStr term) s).matchList := by
  rw [refresh_matchList, refresh_matchList]
  have hq : queryOf true (toLowerStr term) = queryOf false term := rfl
  rw [hq]
  by_cases h : queryOf false term = ""
  · rw [if_pos h, if_pos h]
  · rw [if_neg h, if_neg h, computeResults_eq, computeResults_eq]
    congr 1
    have henum : (history.map lowerItem).enum
        = history.enum.map (Prod.map id lowerItem) :=
      List.enumFrom_map 0 history lowerItem
    unfold lowerHistory
    rw [henum, List.flatMap_map]
    have hfun : (fun a => stepTriples true (queryOf false term)
          (Prod.map id lowerItem a))
        = stepTriples false (queryOf false term) :=
      funext fun p => stepTriples_lower (queryOf false term) p
    rw [hfun]

/-- Claim C6: with an empty query, `refreshSearch` unconditionally clears the
match list and short-circuits — the rest of the state (current match,
previous term, highlights, scroll requests) is untouched and no re-selection
or scrolling happens. -/
theorem empty_query_short_circuit (history : List ChatHistoryItem) (cs : Bool)
    (s : FindState) :
    refreshSearch history cs "" s = { s with matchList := [] } := by
  have h : queryOf cs "" = "" := by cases cs <;> rfl
  simp [refreshSearch, h]

/-- Claim C7: every match list produced by the indexer carries ordinals that
are exactly the positions in the list, and the underlying occurrence
descriptors (message index, offset within the message) are strictly
increasing in lexicographic order. -/
theorem matches_ordered_and_indexed (history : List ChatHistoryItem)
    (cs : Bool) (term : String) (s : FindState) :
    ((refreshSearch history cs term s).matchList.map SearchMatch.index
        = List.range (refreshSearch history cs term s).matchList.length)
    ∧ (refreshSearch history cs term s).matchList
        = indexMatches 0 (history.enum.flatMap (stepTriples cs (queryOf cs term)))
    ∧ (history.enum.flatMap (stepTriples cs (queryOf cs term))).Pairwise
        tripleLexLT := by
  have hpair := triples_pairwise cs (queryOf cs term) history.enum
    (pairwise_fst_enumFrom history 0)
  have hM : (refreshSearch history cs term s).matchList
      = indexMatches 0 (history.enum.flatMap (stepTriples cs (queryOf cs term))) := by
    rw [refresh_matchList]
    by_cases hq : queryOf cs term = ""
    · rw [if_pos hq, triples_reference, referenceTriples_empty_query history hq]
      rfl
    · rw [if_neg hq, computeResults_eq]
  refine ⟨?_, hM, hpair⟩
  rw [hM, indexMatches_map_index, indexMatches_length, List.range_eq_range']

/-- Claim C10: the two embedded variants of the history-scanning loop agree —
the earlier variant's match list is the later variant's with `messageId`
forgotten (hence equal lengths and pairwise agreement on ordinal and message
index), and the later variant carries a `messageId` on every match. -/
theorem variants_agree (history : List ChatHistoryItem) (cs : Bool)
    (query : String) :
    computeResultsV1 history cs query
        = (computeResults history cs query).map eraseMessageId
    ∧ (computeResults history cs query).all
        (fun m => m.messageId.isSome) = true := by
  refine ⟨computeResultsV1_eq_map history cs query, ?_⟩
  rw [computeResults_eq]
  exact indexMatches_messageId_isSome _ 0

theorem mod_succ_mod (a n : Nat) : (a % n + 1) % n = (a + 1) % n := by
  conv_lhs => rw [Nat.add_mod]
  conv_rhs => rw [Nat.add_mod]
  rw [Nat.mod_mod_of_dvd a (dvd_refl n)]

/-- Claim C9: with an empty match list or no current match, `next` and
`previous` are no-ops — the state, including the scroll-request log, is
unchanged. -/
theorem nav_noop_when_empty (s : FindState)
    (h : s.currentMatch = none ∨ s.matchList = []) :
    nextMatch s = s ∧ previousMatch s = s := by
  rcases h with h | h
  · constructor <;> simp [nextMatch, previousMatch, h]
  · cases hc : s.currentMatch with
    | none => constructor <;> simp [nextMatch, previousMatch, hc]
    | some cur =>
      have hlen : s.matchList.length = 0 := by rw [h]; rfl
      constructor <;> simp [nextMatch, previousMatch, hc, hlen]

theorem nav_noop_witness :
    (sFresh.currentMatch = none ∨ sFresh.matchList = [])
    ∧ (nextMatch sFresh = sFresh ∧ previousMatch sFresh = sFresh) :=
  ⟨Or.inl rfl, nav_noop_when_empty sFresh (Or.inl rfl)⟩

theorem next_step (s : FindState) (hlen : 0 < s.matchList.length)
    (hW : ∀ (k : Nat) (hk : k < s.matchList.length), (s.matchList[k]).index = k)
    (x : FindState) (j : Nat) (hj : j < s.matchList.length)
    (hxm : x.matchList = s.matchList)
    (hxc : x.currentMatch = s.matchList[j]?) :
    (nextMatch x).matchList = s.matchList
    ∧ (nextMatch x).currentMatch = s.matchList[(j + 1) % s.matchList.length]? := by
  have hxc2 : x.currentMatch = some (s.matchList[j]) := by
    rw [hxc, List.getElem?_eq_getElem hj]
  have hlt : (j + 1) % s.matchList.length < s.matchList.length :=
    Nat.mod_lt _ hlen
  have hval : nextMatch x
      = scrollToMatch x (s.matchList.get ⟨(j + 1) % s.matchList.length, hlt⟩) := by
    unfold nextMatch
    rw [hxc2]
    simp only [hxm, hW j hj]
    rw [if_neg (by omega), List.getElem?_eq_getElem hlt]
    rfl
  rw [hval]
  refine ⟨?_, ?_⟩
  · rw [scrollToMatch_matchList, hxm]
  · rw [List.getElem?_eq_getElem hlt]
    rfl

theorem prev_step (s : FindState) (hlen : 0 < s.matchList.length)
    (hW : ∀ (k : Nat) (hk : k < s.matchList.length), (s.matchList[k]).index = k)
    (x : FindState) (j : Nat) (hj : j < s.matchList.length)
    (hxm : x.matchList = s.matchList)
    (hxc : x.currentMatch = s.matchList[j]?) :
    (previousMatch x).matchList = s.matchList
    ∧ (previousMatch x).currentMatch
        = s.matchList[if j = 0 then s.matchList.length - 1 else j - 1]? := by
  have hxc2 : x.currentMatch = some (s.matchList[j]) := by
    rw [hxc, List.getElem?_eq_getElem hj]
  have hlt : (if j = 0 then s.matchList.length - 1 else j - 1)
      < s.matchList.length := by
    by_cases h0 : j = 0
    · rw [if_pos h0]; omega
    · rw [if_neg h0]; omega
  have hval : previousMatch x
      = scrollToMatch x
          (s.matchList.get ⟨if j = 0 then s.matchList.length - 1 else j - 1, hlt⟩) := by
    unfold previousMatch
    rw [hxc2]
    simp only [hxm, hW j hj]
    rw [if_neg (by omega), List.getElem?_eq_getElem hlt]
    rfl
  rw [hval]
  refine ⟨?_, ?_⟩
  · rw [scrollToMatch_matchList, hxm]
  · rw [List.getElem?_eq_getElem hlt]
    rfl

/-- Claim C4: on a match list whose ordinals equal positions (the indexer's
invariant), with the current match an element of the list, `next` applied
`length` times returns the current match to the original one, and `previous`
is the exact inverse of `next` in both orders. -/
theorem navigation_cycle (s : FindState) (cur : SearchMatch)
    (hidx : s.matchList.map SearchMatch.index = List.range s.matchList.length)
    (hcur : s.currentMatch = some cur) (hmem : cur ∈ s.matchList) :
    ((nextMatch^[s.matchList.length] s).currentMatch = s.currentMatch)
    ∧ (previousMatch (nextMatch s)).currentMatch = s.currentMatch
    ∧ (nextMatch (previousMatch s)).currentMatch = s.currentMatch := by
  have hne : s.matchList ≠ [] := by
    intro h
    rw [h] at hmem
    exact absurd hmem (List.not_mem_nil cur)
  have hlen : 0 < s.matchList.length := List.length_pos.mpr hne
  have hW : ∀ (k : Nat) (hk : k < s.matchList.length),
      (s.matchList[k]).index = k := by
    intro k hk
    have h0 := congrArg (fun l => l[k]?) hidx
    simp only [List.getElem?_map, List.getElem?_eq_getElem hk,
      List.getElem?_range hk, Option.map_some'] at h0
    exact Option.some.inj h0
  obtain ⟨⟨k, hk⟩, hkeq⟩ := List.mem_iff_get.mp hmem
  have hkeq2 : s.matchList[k] = cur := by
    rw [← hkeq]
    exact (List.get_eq_getElem s.matchList ⟨k, hk⟩).symm
  have hcur2 : s.currentMatch = s.matchList[k]? := by
    rw [hcur, List.getElem?_eq_getElem hk, hkeq2]
  have hiter : ∀ m : Nat, (nextMatch^[m] s).matchList = s.matchList
      ∧ (nextMatch^[m] s).currentMatch
          = s.matchList[(k + m) % s.matchList.length]? := by
    intro m
    induction m with
    | zero =>
      refine ⟨rfl, ?_⟩
      have h0 : (k + 0) % s.matchList.length = k := by
        rw [Nat.add_zero, Nat.mod_eq_of_lt hk]
      rw [Function.iterate_zero_apply, h0, hcur2]
    | succ m ih =>
      rw [Function.iterate_succ_apply']
      have hmod : (k + m) % s.matchList.length < s.matchList.length :=
        Nat.mod_lt _ hlen
      have hs := next_step s hlen hW _ _ hmod ih.1 ih.2
      refine ⟨hs.1, ?_⟩
      rw [hs.2, mod_succ_mod]
      have harith : k + m + 1 = k + (m + 1) := by omega
      rw [harith]
  have hcycle : (nextMatch^[s.matchList.length] s).currentMatch
      = s.currentMatch := by
    have h1 := (hiter s.matchList.length).2
    rw [Nat.add_mod_right, Nat.mod_eq_of_lt hk] at h1
    rw [h1, hcur2]
  have hn := next_step s hlen hW s k hk rfl hcur2
  have hpn := prev_step s hlen hW (nextMatch s)
    ((k + 1) % s.matchList.length) (Nat.mod_lt _ hlen) hn.1 hn.2
  have hidxp : (if (k + 1) % s.matchList.length = 0 then s.matchList.length - 1
      else (k + 1) % s.matchList.length - 1) = k := by
    rcases Nat.lt_or_ge (k + 1) s.matchList.length with h | h
    · rw [Nat.mod_eq_of_lt h, if_neg (by omega)]
      omega
    · have hk1 : k + 1 = s.matchList.length := by omega
      rw [hk1, Nat.mod_self, if_pos rfl]
      omega
  have hprev : (previousMatch (nextMatch s)).currentMatch = s.currentMatch := by
    rw [hpn.2, hidxp]
    exact hcur2.symm
  have hp := prev_step s hlen hW s k hk rfl hcur2
  have hj0 : (if k = 0 then s.matchList.length - 1 else k - 1)
      < s.matchList.length := by
    by_cases h0 : k = 0
    · rw [if_pos h0]; omega
    · rw [if_neg h0]; omega
  have hnp0 := next_step s hlen hW (previousMatch s) _ hj0 hp.1 hp.2
  have hidxn : ((if k = 0 then s.matchList.length - 1 else k - 1) + 1)
      % s.matchList.length = k := by
    by_cases h0 : k = 0
    · rw [if_pos h0, Nat.sub_add_cancel hlen, Nat.mod_self, h0]
    · rw [if_neg h0, Nat.sub_add_cancel (by omega), Nat.mod_eq_of_lt hk]
  have hnext : (nextMatch (previousMatch s)).currentMatch = s.currentMatch := by
    rw [hnp0.2, hidxn]
    exact hcur2.symm
  exact ⟨hcycle, hprev, hnext⟩

/-- Witness for C4 at a concrete two-match state. -/
theorem navigation_cycle_witness :
    (sNav.matchList.map SearchMatch.index = List.range sNav.matchList.length)
    ∧ sNav.currentMatch = some mB1
    ∧ mB1 ∈ sNav.matchList
    ∧ ((nextMatch^[sNav.matchList.length] sNav).currentMatch = sNav.currentMatch
       ∧ (previousMatch (nextMatch sNav)).currentMatch = sNav.currentMatch
       ∧ (nextMatch (previousMatch sNav)).currentMatch = sNav.currentMatch) :=
  ⟨by decide, rfl, by decide, navigation_cycle sNav mB1 (by decide) rfl (by decide)⟩

/-- Claim C8: whenever the widget is closed or externally disabled, the search
effect clears the match list and the highlight effect clears the visible
highlights, each leaving the rest of the state untouched and ignoring the
history, term, and geometry inputs entirely. -/
theorem closed_or_disabled_clears (disabled isOpen : Bool)
    (history : List ChatHistoryItem) (cs : Bool) (term : String)
    (s : FindState) (computed : List SearchMatch) (s2 : FindState)
    (h : isOpen = false ∨ disabled = true) :
    searchEffect disabled isOpen history cs term s = { s with matchList := [] }
    ∧ highlightEffect isOpen disabled computed s2
        = { s2 with visibleHighlights := [] } := by
  rcases h with h | h
  · subst h
    exact ⟨by simp [searchEffect], by simp [highlightEffect]⟩
  · subst h
    exact ⟨by simp [searchEffect], by simp [highlightEffect]⟩

/-- Witness for C8 with the widget closed. -/
theorem closed_or_disabled_clears_witness :
    ((false = false ∨ (false : Bool) = true))
    ∧ (searchEffect false false [itemA] true "x" sKeep
          = { sKeep with matchList := [] }
       ∧ highlightEffect false false [mA0] sKeep
          = { sKeep with visibleHighlights := [] }) :=
  ⟨Or.inl rfl,
    closed_or_disabled_clears false false [itemA] true "x" sKeep [mA0] sKeep
      (Or.inl rfl)⟩

theorem reselect_eq_claim (cur : SearchMatch) (results : List SearchMatch)
    (hid : cur.messageId ≠ some "") :
    reselectCurrent (some cur) results = claimReselect cur results := by
  have hL : reselectCurrent (some cur) results
      = match results.find? (matchesPrev cur) with
        | some m => some m
        | none => results.head? := rfl
  cases hmid : cur.messageId with
  | none =>
    have hfun : matchesPrev cur
        = fun r => r.messageIndex == cur.messageIndex := by
      funext r
      simp [matchesPrev, msgIdTruthy, hmid]
    rw [hL, hfun]
    unfold claimReselect
    rw [hmid]
    simp only [Option.isSome_none, Bool.false_eq_true, if_false]
  | some v =>
    have hvne : v ≠ "" := fun h => hid (by rw [hmid, h])
    have hb : (v == "") = false := beq_eq_false_iff_ne.mpr hvne
    have hfun : matchesPrev cur = fun r => r.messageId == cur.messageId := by
      funext r
      simp [matchesPrev, msgIdTruthy, hmid, hb]
    rw [hL, hfun]
    unfold claimReselect
    rw [hmid]
    simp only [Option.isSome_some, if_true]

/-- Claim C2 (amended): on a re-index with a nonempty query and an unchanged
term, given a previous current match whose `messageId` is not the empty
string, the new current match is exactly the claim's policy: the first match
sharing `messageId` when present, else the first sharing `messageIndex`,
else the first match of the new list.  (The amendment excludes the empty
string: the source tests the id for JS truthiness, not mere presence.) -/
theorem reselect_unchanged_term_amended (history : List ChatHistoryItem)
    (cs : Bool) (term : String) (s : FindState) (cur : SearchMatch)
    (hq : queryOf cs term ≠ "") (hterm : term = s.prevSearchTerm)
    (hcur : s.currentMatch = some cur) (hid : cur.messageId ≠ some "") :
    (refreshSearch history cs term s).currentMatch
      = claimReselect cur (refreshSearch history cs term s).matchList := by
  have hmatch : (refreshSearch history cs term s).matchList
      = computeResults history cs (queryOf cs term) := by
    rw [refresh_matchList, if_neg hq]
  have hne : ¬ (term ≠ s.prevSearchTerm) := by
    rw [hterm]
    simp
  rw [hmatch]
  unfold refreshSearch
  rw [if_neg hq, if_neg hne, hcur]
  exact reselect_eq_claim cur _ hid

/-- Witness for the amended C2 at a concrete unchanged-term re-index. -/
theorem reselect_unchanged_term_amended_witness :
    (queryOf true "x" ≠ "")
    ∧ ("x" = sKeep.prevSearchTerm)
    ∧ (sKeep.currentMatch = some mA0)
    ∧ (mA0.messageId ≠ some "")
    ∧ ((refreshSearch [itemA] true "x" sKeep).currentMatch
        = claimReselect mA0 (refreshSearch [itemA] true "x" sKeep).matchList) :=
  ⟨by decide, rfl, rfl, by decide,
    reselect_unchanged_term_amended [itemA] true "x" sKeep mA0
      (by decide) rfl rfl (by decide)⟩

/-- Counterexample to C2 as stated: the previous current match's `messageId`
is present (`some ""`), a match sharing it exists in the new list, yet the
code relocates by `messageIndex` instead, because the empty string is falsy
in the source's truthiness test. -/
theorem reselect_unchanged_term_counterexample :
    sEmptyId.prevSearchTerm = "x"
    ∧ sEmptyId.currentMatch = some ⟨9, some 0, some ""⟩
    ∧ (Option.isSome (some "")) = true
    ∧ (refreshSearch [itemA, itemEmptyId] true "x" sEmptyId).currentMatch
        ≠ claimReselect ⟨9, some 0, some ""⟩
            (refreshSearch [itemA, itemEmptyId] true "x" sEmptyId).matchList := by
  refine ⟨rfl, rfl, rfl, ?_⟩
  decide

/-- Claim C3 (amended): on a re-index with a nonempty query and a changed
term, the current match becomes the first match of the new list when that
list is nonempty, regardless of the prior current match; when the new list
is empty the prior current match is left in place (the code does not reset
it to none). -/
theorem changed_term_reset_amended (history : List ChatHistoryItem)
    (cs : Bool) (term : String) (s : FindState)
    (hq : queryOf cs term ≠ "") (hne : term ≠ s.prevSearchTerm) :
    (refreshSearch history cs term s).currentMatch
      = if (refreshSearch history cs term s).matchList = [] then s.currentMatch
        else (refreshSearch history cs term s).matchList.head? := by
  have hmatch : (refreshSearch history cs term s).matchList
      = computeResults history cs (queryOf cs term) := by
    rw [refresh_matchList, if_neg hq]
  rw [hmatch]
  unfold refreshSearch
  rw [if_neg hq, if_pos hne]
  cases hres : computeResults history cs (queryOf cs term) with
  | nil => simp
  | cons a rest => simp [scrollToMatch]

/-- Witness for the amended C3 at a concrete changed-term re-index. -/
theorem changed_term_reset_amended_witness :
    (queryOf true "x" ≠ "")
    ∧ ("x" ≠ sFresh.prevSearchTerm)
    ∧ ((refreshSearch [itemA] true "x" sFresh).currentMatch
        = if (refreshSearch [itemA] true "x" sFresh).matchList = []
          then sFresh.currentMatch
          else (refreshSearch [itemA] true "x" sFresh).matchList.head?) :=
  ⟨by decide, by decide,
    changed_term_reset_amended [itemA] true "x" sFresh (by decide) (by decide)⟩

/-- Counterexample to C3 as stated: the term changed and the new match list
is empty, yet the current match is not reset to none — the stale previous
match survives. -/
theorem changed_term_reset_counterexample :
    "b" ≠ sStale.prevSearchTerm
    ∧ (refreshSearch [] true "b" sStale).matchList = []
    ∧ (refreshSearch [] true "b" sStale).currentMatch ≠ none := by
  refine ⟨?_, ?_, ?_⟩ <;> decide

end FindWidget
